import Mathlib

/-!
# Verification of the MIMO beamforming engine of `src/demomimo.py`

Shallow embedding of the beamforming response engine (`mimo_array_response`,
lines 53-94 of the source) and of the bearing-folding logic (lines 103-114),
over exact real and complex numbers.

Numeric semantics: the Python code computes with IEEE-754 doubles and numpy
complex arrays; this embedding uses exact real/complex arithmetic.  Lean's
total operations give the junk values `x / 0 = 0` and `Real.logb b 0 = 0`
where IEEE arithmetic would give `NaN` (for `0 / 0`) or `-∞` (for `log 0`).
The inputs on which the Python computation produces `NaN` in its output
(a `0 / 0` division during the final normalisation, which happens exactly
when every raw gain of the sweep is zero - in particular when a window
vector has zero Euclidean norm, as `np.hanning(2) = [0, 0]` does exactly,
even in IEEE doubles) are tracked by the predicate `producesNaN`; the one
input condition on which the source raises an exception (`np.max` of an
empty array, for an empty sweep) is tracked by `signalsError`.
-/

open scoped BigOperators

namespace demomimo

noncomputable section

/-- `np.radians(x)`: degrees to radians. -/
def radians (x : ℝ) : ℝ := x * (Real.pi / 180)

/-- `np.degrees(x)`: radians to degrees (line 106). -/
def np_degrees (x : ℝ) : ℝ := x * 180 / Real.pi

/-- Line 57: `d = 0.5`, element spacing in wavelengths. -/
def d : ℝ := 0.5

/-- Line 58: `k = 2 * np.pi`, the wavenumber for unit wavelength. -/
def k : ℝ := 2 * Real.pi

/-- `np.hamming(M)`: numpy returns `[1.0]` for `M = 1`, and otherwise the
coefficients `0.54 - 0.46 * cos(2 pi n / (M - 1))` for `n = 0 .. M-1`. -/
def np_hamming (M : ℕ) : Fin M → ℝ := fun n =>
  if M = 1 then 1
  else 0.54 - 0.46 * Real.cos (2 * Real.pi * (n : ℕ) / ((M : ℝ) - 1))

/-- `np.hanning(M)`: numpy returns `[1.0]` for `M = 1`, and otherwise the
coefficients `0.5 - 0.5 * cos(2 pi n / (M - 1))` for `n = 0 .. M-1`. -/
def np_hanning (M : ℕ) : Fin M → ℝ := fun n =>
  if M = 1 then 1
  else 0.5 - 0.5 * Real.cos (2 * Real.pi * (n : ℕ) / ((M : ℝ) - 1))

/-- `np.blackman(M)`: numpy returns `[1.0]` for `M = 1`, and otherwise the
coefficients `0.42 - 0.5 * cos(2 pi n / (M-1)) + 0.08 * cos(4 pi n / (M-1))`
for `n = 0 .. M-1`. -/
def np_blackman (M : ℕ) : Fin M → ℝ := fun n =>
  if M = 1 then 1
  else 0.42 - 0.5 * Real.cos (2 * Real.pi * (n : ℕ) / ((M : ℝ) - 1))
       + 0.08 * Real.cos (4 * Real.pi * (n : ℕ) / ((M : ℝ) - 1))

/-- Lines 61-72: the window selection.  The `if/elif` chain recognises
`"Hamming"`, `"Hanning"` and `"Blackman"`; every other string (including
`"Uniform"`) takes the final `else` branch, `np.ones(M)`. -/
def raw_window (window_type : String) (M : ℕ) : Fin M → ℝ :=
  if window_type = "Hamming" then np_hamming M
  else if window_type = "Hanning" then np_hanning M
  else if window_type = "Blackman" then np_blackman M
  else fun _ => 1

/-- `np.linalg.norm(v)`: the Euclidean norm. -/
def l2norm {M : ℕ} (v : Fin M → ℝ) : ℝ := Real.sqrt (∑ n, v n ^ 2)

/-- Lines 75-76: `win = win / np.linalg.norm(win)`.  When the norm is zero
IEEE arithmetic gives `0 / 0 = NaN` for each element; the embedding's junk
value is the zero vector (`x / 0 = 0` in Lean). -/
def normalize {M : ℕ} (v : Fin M → ℝ) : Fin M → ℝ := fun n => v n / l2norm v

/-- Lines 79-80 and 87-88: a steering vector,
`win * np.exp(1j * k * d * np.arange(M) * np.sin(np.radians(ang)))`. -/
def steerVec {M : ℕ} (win : Fin M → ℝ) (ang : ℝ) : Fin M → ℂ := fun n =>
  (win n : ℂ) *
    Complex.exp (Complex.I * Complex.ofReal (k * d * (n : ℕ) * Real.sin (radians ang)))

/-- `np.outer(u, v)`: the matrix with entries `u i * v j`. -/
def np_outer {m n : ℕ} (u : Fin m → ℂ) (v : Fin n → ℂ) : Fin m → Fin n → ℂ :=
  fun i j => u i * v j

/-- `v.conj()` for a complex vector. -/
def vec_conj {m : ℕ} (v : Fin m → ℂ) : Fin m → ℂ := fun i => (starRingEnd ℂ) (v i)

/-- `A.conj()` for a complex matrix. -/
def mat_conj {m n : ℕ} (A : Fin m → Fin n → ℂ) : Fin m → Fin n → ℂ :=
  fun i j => (starRingEnd ℂ) (A i j)

/-- `np.sum(A * B)`: the sum of the entrywise product of two matrices. -/
def np_sum_mul {m n : ℕ} (A B : Fin m → Fin n → ℂ) : ℂ := ∑ i, ∑ j, A i j * B i j

/-- Lines 83 and 87-90, for one sweep angle `ang`: with
`H = np.outer(rx_vec_user, tx_vec_user.conj())` and
`H_steer = np.outer(rx_vec, tx_vec.conj())`, the raw gain
`np.abs(np.sum(H_steer * H.conj()))`. -/
def gainAt {Nt Nr : ℕ} (win_tx : Fin Nt → ℝ) (win_rx : Fin Nr → ℝ)
    (theta_user ang : ℝ) : ℝ :=
  Complex.abs (np_sum_mul
    (np_outer (steerVec win_rx ang) (vec_conj (steerVec win_tx ang)))
    (mat_conj (np_outer (steerVec win_rx theta_user) (vec_conj (steerVec win_tx theta_user)))))

/-- `np.max` of a list of nonnegative reals.  On a nonempty list of
nonnegative entries (the raw gains are absolute values) this equals numpy's
maximum; on the empty list `np.max` raises `ValueError` (see
`signalsError`) while this total model returns `0`. -/
def npMax (l : List ℝ) : ℝ := l.foldr max 0

/-- Lines 85-93: the list of raw gains `response`, one per sweep angle, in
sweep order, using the normalized windows of lines 61-76. -/
def responseRaw (Nt Nr : ℕ) (theta_user : ℝ) (theta : List ℝ)
    (window_type : String) : List ℝ :=
  theta.map fun ang =>
    gainAt (normalize (raw_window window_type Nt)) (normalize (raw_window window_type Nr))
      theta_user ang

/-- `np.max(response)` of line 94. -/
def responseMax (Nt Nr : ℕ) (theta_user : ℝ) (theta : List ℝ)
    (window_type : String) : ℝ :=
  npMax (responseRaw Nt Nr theta_user theta window_type)

/-- Lines 53-94, `mimo_array_response`: the normalized angular response in
dB, `20 * np.log10(response / np.max(response))`. -/
def mimo_array_response (Nt Nr : ℕ) (theta_user : ℝ) (theta : List ℝ)
    (window_type : String) : List ℝ :=
  (responseRaw Nt Nr theta_user theta window_type).map fun g =>
    20 * Real.logb 10 (g / responseMax Nt Nr theta_user theta window_type)

/-- The input conditions on which the call `mimo_array_response(...)` raises
an exception.  Tracing the source: the function body contains no validation
branch and no `raise`; the only raising operation is `np.max(response)` on
line 94, which raises `ValueError` when `response` is empty, i.e. exactly
when the sweep `theta` is empty.  In particular no input condition on the
antenna counts `Nt`, `Nr` (taken as arguments here so that claims about
geometry validation can be stated) raises an error. -/
def signalsError (Nt Nr : ℕ) (theta : List ℝ) : Prop := theta = []

/-- The input conditions on which the value returned by
`mimo_array_response` contains IEEE `NaN` entries: the division
`response / np.max(response)` on line 94 is `0 / 0` in every component
exactly when the maximal raw gain is `0` and the sweep is nonempty.  (A
zero-norm window - e.g. `np.hanning(2) = [0.0, 0.0]`, exact even in IEEE
doubles - makes the normalized window `NaN` in IEEE and the zero vector in
this exact model, and then every raw gain is `0`, so that case is
subsumed.) -/
def producesNaN (Nt Nr : ℕ) (theta_user : ℝ) (theta : List ℝ)
    (window_type : String) : Prop :=
  theta ≠ [] ∧ responseMax Nt Nr theta_user theta window_type = 0

/-- Lines 109-112: the folding of a bearing into `[-90, 90]`. -/
def fold_angle (θ : ℝ) : ℝ :=
  if θ > 90 then 180 - θ else if θ < -90 then -180 - θ else θ

/-- Lines 103-114: the steering angle derived from the user and base-station
coordinates, `np.degrees(np.arctan2(delta_lon, delta_lat))` folded into
`[-90, 90]`.  `np.arctan2(y, x)` is the argument of the complex number
`x + i y`. -/
def theta_from_location (user_lat user_lon bs_lat bs_lon : ℝ) : ℝ :=
  fold_angle (np_degrees (Complex.arg ((user_lat - bs_lat) + (user_lon - bs_lon) * Complex.I)))

end

/-! ## Helper lemmas -/

theorem npMax_nonneg (l : List ℝ) : 0 ≤ npMax l := by
  induction l with
  | nil => simp [npMax]
  | cons a t ih => exact le_trans ih (le_max_right a (npMax t))

theorem le_npMax_of_mem {l : List ℝ} {a : ℝ} (h : a ∈ l) : a ≤ npMax l := by
  induction l with
  | nil => cases h
  | cons b t ih =>
      rcases List.mem_cons.1 h with rfl | h'
      · exact le_max_left _ _
      · exact le_trans (ih h') (le_max_right _ _)

theorem npMax_le {l : List ℝ} {c : ℝ} (h : ∀ a ∈ l, a ≤ c) (hc : 0 ≤ c) :
    npMax l ≤ c := by
  induction l with
  | nil => simpa [npMax] using hc
  | cons b t ih =>
      refine max_le (h b (List.mem_cons_self b t)) ?_
      exact ih fun a ha => h a (List.mem_cons_of_mem b ha)

theorem abs_steerVec {M : ℕ} (win : Fin M → ℝ) (ang : ℝ) (n : Fin M) :
    Complex.abs (steerVec win ang n) = |win n| := by
  rw [steerVec, map_mul, Complex.abs_ofReal, Complex.abs_exp]
  simp [Complex.mul_re]

theorem steerVec_mul_conj_self {M : ℕ} (win : Fin M → ℝ) (θ : ℝ) (n : Fin M) :
    steerVec win θ n * (starRingEnd ℂ) (steerVec win θ n) = ((win n ^ 2 : ℝ) : ℂ) := by
  rw [Complex.mul_conj]
  norm_cast
  rw [← Complex.sq_abs, abs_steerVec, sq_abs]

theorem np_sum_mul_outer_conj {m n : ℕ} (a c : Fin m → ℂ) (b e : Fin n → ℂ) :
    np_sum_mul (np_outer a b) (mat_conj (np_outer c e)) =
      (∑ i, a i * (starRingEnd ℂ) (c i)) * (∑ j, b j * (starRingEnd ℂ) (e j)) := by
  rw [Fintype.sum_mul_sum]
  unfold np_sum_mul np_outer mat_conj
  refine Finset.sum_congr rfl fun i _ => Finset.sum_congr rfl fun j _ => ?_
  rw [map_mul]
  ring

theorem gainAt_eq {Nt Nr : ℕ} (win_tx : Fin Nt → ℝ) (win_rx : Fin Nr → ℝ)
    (θu ang : ℝ) :
    gainAt win_tx win_rx θu ang =
      Complex.abs (∑ i, steerVec win_rx ang i * (starRingEnd ℂ) (steerVec win_rx θu i)) *
        Complex.abs (∑ j, (starRingEnd ℂ) (steerVec win_tx ang j) * steerVec win_tx θu j) := by
  unfold gainAt
  rw [np_sum_mul_outer_conj, map_mul]
  congr 1
  refine congrArg Complex.abs (Finset.sum_congr rfl fun j _ => ?_)
  simp [vec_conj]

theorem inner_self_eq {M : ℕ} (w : Fin M → ℝ) (θ : ℝ) :
    (∑ i, steerVec w θ i * (starRingEnd ℂ) (steerVec w θ i)) = ((∑ i, w i ^ 2 : ℝ) : ℂ) := by
  rw [Complex.ofReal_sum]
  exact Finset.sum_congr rfl fun i _ => steerVec_mul_conj_self w θ i

theorem inner_abs_le {M : ℕ} (w : Fin M → ℝ) (θ1 θ2 : ℝ) :
    Complex.abs (∑ i, steerVec w θ1 i * (starRingEnd ℂ) (steerVec w θ2 i)) ≤ ∑ i, w i ^ 2 := by
  refine le_trans (Complex.abs.sum_le _ _) (Finset.sum_le_sum fun i _ => ?_)
  rw [map_mul, Complex.abs_conj, abs_steerVec, abs_steerVec, abs_mul_abs_self, ← pow_two]

theorem inner_abs_le' {M : ℕ} (w : Fin M → ℝ) (θ1 θ2 : ℝ) :
    Complex.abs (∑ j, (starRingEnd ℂ) (steerVec w θ1 j) * steerVec w θ2 j) ≤ ∑ j, w j ^ 2 := by
  refine le_trans (Complex.abs.sum_le _ _) (Finset.sum_le_sum fun j _ => ?_)
  rw [map_mul, Complex.abs_conj, abs_steerVec, abs_steerVec, abs_mul_abs_self, ← pow_two]

theorem gainAt_self {Nt Nr : ℕ} (win_tx : Fin Nt → ℝ) (win_rx : Fin Nr → ℝ) (θ : ℝ) :
    gainAt win_tx win_rx θ θ = (∑ i, win_rx i ^ 2) * (∑ j, win_tx j ^ 2) := by
  have h2 : (∑ j, (starRingEnd ℂ) (steerVec win_tx θ j) * steerVec win_tx θ j)
      = ((∑ j, win_tx j ^ 2 : ℝ) : ℂ) := by
    rw [← inner_self_eq win_tx θ]
    exact Finset.sum_congr rfl fun j _ => mul_comm _ _
  rw [gainAt_eq, inner_self_eq, h2, Complex.abs_ofReal, Complex.abs_ofReal,
    abs_of_nonneg (Finset.sum_nonneg fun i _ => sq_nonneg _),
    abs_of_nonneg (Finset.sum_nonneg fun j _ => sq_nonneg _)]

theorem gainAt_nonneg {Nt Nr : ℕ} (win_tx : Fin Nt → ℝ) (win_rx : Fin Nr → ℝ)
    (θu ang : ℝ) : 0 ≤ gainAt win_tx win_rx θu ang := by
  unfold gainAt
  exact Complex.abs.nonneg _

theorem gainAt_le_self {Nt Nr : ℕ} (win_tx : Fin Nt → ℝ) (win_rx : Fin Nr → ℝ)
    (θu ang : ℝ) : gainAt win_tx win_rx θu ang ≤ gainAt win_tx win_rx θu θu := by
  rw [gainAt_self, gainAt_eq]
  exact mul_le_mul (inner_abs_le _ _ _) (inner_abs_le' _ _ _) (Complex.abs.nonneg _)
    (Finset.sum_nonneg fun i _ => sq_nonneg _)

theorem dB_nonpos {g Mx : ℝ} (hg : 0 ≤ g) (hgM : g ≤ Mx) :
    20 * Real.logb 10 (g / Mx) ≤ 0 := by
  rcases eq_or_lt_of_le hg with h0 | h0
  · rw [← h0, zero_div, Real.logb_zero, mul_zero]
  · have hM : 0 < Mx := lt_of_lt_of_le h0 hgM
    have h1 : g / Mx ≤ 1 := (div_le_one hM).2 hgM
    have h2 : (0 : ℝ) ≤ g / Mx := le_of_lt (div_pos h0 hM)
    have h3 := Real.logb_nonpos (by norm_num : (1 : ℝ) < 10) h2 h1
    linarith

theorem dB_self_max (Mx : ℝ) : 20 * Real.logb 10 (Mx / Mx) = 0 := by
  rcases eq_or_ne Mx 0 with rfl | h
  · rw [div_zero, Real.logb_zero, mul_zero]
  · rw [div_self h, Real.logb_one, mul_zero]

theorem npMax_mem {l : List ℝ} (h : npMax l ≠ 0) : npMax l ∈ l := by
  induction l with
  | nil => simp [npMax] at h
  | cons b t ih =>
      rcases le_total (npMax t) b with hb | hb
      · have : npMax (b :: t) = b := max_eq_left hb
        rw [this]; exact List.mem_cons_self b t
      · have hmax : npMax (b :: t) = npMax t := max_eq_right hb
        rw [hmax]
        exact List.mem_cons_of_mem b (ih (by rw [hmax] at h; exact h))

theorem responseRaw_ne_nil {Nt Nr : ℕ} {θu : ℝ} {theta : List ℝ} {wt : String}
    (h : theta ≠ []) : responseRaw Nt Nr θu theta wt ≠ [] := by
  simpa [responseRaw] using h

theorem mem_responseRaw_iff {Nt Nr : ℕ} {θu : ℝ} {theta : List ℝ} {wt : String} {y : ℝ} :
    y ∈ responseRaw Nt Nr θu theta wt ↔
      ∃ ang ∈ theta,
        gainAt (normalize (raw_window wt Nt)) (normalize (raw_window wt Nr)) θu ang = y := by
  simp [responseRaw]

theorem responseRaw_nonneg {Nt Nr : ℕ} {θu : ℝ} {theta : List ℝ} {wt : String} :
    ∀ y ∈ responseRaw Nt Nr θu theta wt, 0 ≤ y := by
  intro y hy
  rcases mem_responseRaw_iff.1 hy with ⟨ang, _, rfl⟩
  exact gainAt_nonneg _ _ _ _

theorem responseMax_eq_gain_self {Nt Nr : ℕ} {θu : ℝ} {theta : List ℝ} {wt : String}
    (h : θu ∈ theta) :
    responseMax Nt Nr θu theta wt =
      gainAt (normalize (raw_window wt Nt)) (normalize (raw_window wt Nr)) θu θu := by
  unfold responseMax
  apply le_antisymm
  · refine npMax_le (fun a ha => ?_) (gainAt_nonneg _ _ _ _)
    rcases mem_responseRaw_iff.1 ha with ⟨ang, _, rfl⟩
    exact gainAt_le_self _ _ _ _
  · exact le_npMax_of_mem (mem_responseRaw_iff.2 ⟨θu, h, rfl⟩)

theorem mimo_entries_nonpos (Nt Nr : ℕ) (θu : ℝ) (theta : List ℝ) (wt : String) :
    ∀ x ∈ mimo_array_response Nt Nr θu theta wt, x ≤ 0 := by
  intro x hx
  rcases List.mem_map.1 hx with ⟨g, hg, rfl⟩
  exact dB_nonpos (responseRaw_nonneg g hg) (le_npMax_of_mem hg)

theorem mimo_get (Nt Nr : ℕ) (θu : ℝ) (theta : List ℝ) (wt : String) (i : ℕ)
    (hi : i < theta.length) (hi' : i < (mimo_array_response Nt Nr θu theta wt).length) :
    (mimo_array_response Nt Nr θu theta wt).get ⟨i, hi'⟩ =
      20 * Real.logb 10
        (gainAt (normalize (raw_window wt Nt)) (normalize (raw_window wt Nr)) θu
            (theta.get ⟨i, hi⟩) /
          responseMax Nt Nr θu theta wt) := by
  simp [mimo_array_response, responseRaw]

theorem steerVec_zero {M : ℕ} (w : Fin M → ℝ) (n : Fin M) :
    steerVec w 0 n = ((w n : ℝ) : ℂ) := by
  simp [steerVec, radians]

theorem steerVec_neg {M : ℕ} (w : Fin M → ℝ) (ang : ℝ) (n : Fin M) :
    steerVec w (-ang) n = (starRingEnd ℂ) (steerVec w ang n) := by
  rw [steerVec, steerVec, map_mul, Complex.conj_ofReal, ← Complex.exp_conj]
  congr 2
  rw [map_mul, Complex.conj_I, Complex.conj_ofReal]
  have hr : radians (-ang) = -(radians ang) := by unfold radians; ring
  rw [hr, Real.sin_neg]
  push_cast
  ring

theorem steerVec_pi_sub {M : ℕ} (w : Fin M → ℝ) (θ : ℝ) :
    steerVec w (180 - θ) = steerVec w θ := by
  funext n
  rw [steerVec, steerVec]
  have hr : radians (180 - θ) = Real.pi - radians θ := by unfold radians; ring
  rw [hr, Real.sin_pi_sub]

theorem l2norm_nonneg {M : ℕ} (v : Fin M → ℝ) : 0 ≤ l2norm v := Real.sqrt_nonneg _

theorem l2norm_normalize {M : ℕ} (v : Fin M → ℝ) (h : l2norm v ≠ 0) :
    l2norm (normalize v) = 1 := by
  have hsum : (∑ n, v n ^ 2) = l2norm v ^ 2 := by
    unfold l2norm
    rw [Real.sq_sqrt (Finset.sum_nonneg fun n _ => sq_nonneg _)]
  have hone : (∑ n, (v n / l2norm v) ^ 2) = 1 := by
    simp only [div_pow]
    rw [← Finset.sum_div, hsum, div_self (pow_ne_zero 2 h)]
  unfold l2norm normalize
  rw [hone, Real.sqrt_one]

theorem l2norm_pos_of_ne {M : ℕ} (v : Fin M → ℝ) (n : Fin M) (h : v n ≠ 0) :
    0 < l2norm v := by
  unfold l2norm
  apply Real.sqrt_pos.2
  have hpos : 0 < v n ^ 2 := lt_of_le_of_ne (sq_nonneg _) (Ne.symm (pow_ne_zero 2 h))
  exact lt_of_lt_of_le hpos
    (Finset.single_le_sum (fun i _ => sq_nonneg (v i)) (Finset.mem_univ n))

theorem raw_window_else (wt : String) (hm : wt ≠ "Hamming") (hn : wt ≠ "Hanning")
    (hb : wt ≠ "Blackman") (M : ℕ) : raw_window wt M = fun _ => 1 := by
  unfold raw_window
  rw [if_neg hm, if_neg hn, if_neg hb]

theorem raw_window_hamming (M : ℕ) : raw_window "Hamming" M = np_hamming M := by
  unfold raw_window
  rw [if_pos rfl]

theorem raw_window_hanning (M : ℕ) : raw_window "Hanning" M = np_hanning M := by
  unfold raw_window
  rw [if_neg (by decide), if_pos rfl]

theorem raw_window_blackman (M : ℕ) : raw_window "Blackman" M = np_blackman M := by
  unfold raw_window
  rw [if_neg (by decide), if_neg (by decide), if_pos rfl]

theorem cos_frac_lt_one {M : ℕ} (h : 3 ≤ M) :
    Real.cos (2 * Real.pi * 1 / ((M : ℝ) - 1)) < 1 := by
  have hM : (2 : ℝ) ≤ (M : ℝ) - 1 := by
    have : (3 : ℝ) ≤ (M : ℝ) := by exact_mod_cast h
    linarith
  have hMpos : (0 : ℝ) < (M : ℝ) - 1 := by linarith
  rcases lt_or_eq_of_le (Real.cos_le_one (2 * Real.pi * 1 / ((M : ℝ) - 1))) with hlt | heq
  · exact hlt
  · exfalso
    rcases (Real.cos_eq_one_iff _).1 heq with ⟨z, hz⟩
    have hπ := Real.pi_pos
    have h1 : (2 * Real.pi) * ((z : ℝ) * ((M : ℝ) - 1)) = (2 * Real.pi) * 1 := by
      have h0 : ((z : ℝ) * (2 * Real.pi)) * ((M : ℝ) - 1) = 2 * Real.pi * 1 := by
        rw [hz]
        field_simp
      linear_combination h0
    have h2 : (z : ℝ) * ((M : ℝ) - 1) = 1 :=
      mul_left_cancel₀ (by positivity : (0 : ℝ) < 2 * Real.pi).ne' h1
    have hz0 : (0 : ℤ) < z := by
      by_contra hc
      push_neg at hc
      have hcr : (z : ℝ) ≤ 0 := by exact_mod_cast hc
      nlinarith
    have hz1 : (1 : ℝ) ≤ (z : ℝ) := by exact_mod_cast hz0
    have hmul : (1 : ℝ) * 2 ≤ (z : ℝ) * ((M : ℝ) - 1) :=
      mul_le_mul hz1 hM (by norm_num) (by linarith)
    linarith

theorem np_hamming_pos (M : ℕ) (n : Fin M) : 0 < np_hamming M n := by
  unfold np_hamming
  split_ifs with h
  · norm_num
  · have hc := Real.cos_le_one (2 * Real.pi * ((n : ℕ) : ℝ) / ((M : ℝ) - 1))
    nlinarith

theorem np_hanning_pos_of_one {M : ℕ} (h3 : 3 ≤ M) (n : Fin M) (hn : (n : ℕ) = 1) :
    0 < np_hanning M n := by
  unfold np_hanning
  rw [hn, Nat.cast_one, if_neg (by omega)]
  have hc := cos_frac_lt_one h3
  nlinarith

theorem np_blackman_pos_of_one {M : ℕ} (h3 : 3 ≤ M) (n : Fin M) (hn : (n : ℕ) = 1) :
    0 < np_blackman M n := by
  unfold np_blackman
  rw [hn, Nat.cast_one, if_neg (by omega)]
  have h4 : (4 : ℝ) * Real.pi * 1 / ((M : ℝ) - 1)
      = 2 * (2 * Real.pi * 1 / ((M : ℝ) - 1)) := by ring
  rw [h4, Real.cos_two_mul]
  have hc := cos_frac_lt_one h3
  nlinarith [sq_nonneg (Real.cos (2 * Real.pi * 1 / ((M : ℝ) - 1)) - 1)]

theorem np_hanning_two (n : Fin 2) : np_hanning 2 n = 0 := by
  unfold np_hanning
  rw [if_neg (by norm_num)]
  fin_cases n
  · norm_num
  · norm_num [Real.cos_two_pi]

theorem normalize_np_hanning_two (n : Fin 2) : normalize (np_hanning 2) n = 0 := by
  unfold normalize
  rw [np_hanning_two, zero_div]

theorem gainAt_zero_tx {Nt Nr : ℕ} {win_tx : Fin Nt → ℝ} (h : ∀ n, win_tx n = 0)
    (win_rx : Fin Nr → ℝ) (θu ang : ℝ) : gainAt win_tx win_rx θu ang = 0 := by
  rw [gainAt_eq]
  have hz : (∑ j, (starRingEnd ℂ) (steerVec win_tx ang j) * steerVec win_tx θu j) = 0 :=
    Finset.sum_eq_zero fun j _ => by simp [steerVec, h j]
  rw [hz, map_zero, mul_zero]

theorem responseMax_eq_zero_of_gain_zero {Nt Nr : ℕ} {θu : ℝ} {theta : List ℝ} {wt : String}
    (h : ∀ ang, gainAt (normalize (raw_window wt Nt)) (normalize (raw_window wt Nr)) θu ang
      = 0) :
    responseMax Nt Nr θu theta wt = 0 := by
  unfold responseMax
  apply le_antisymm
  · refine npMax_le (fun a ha => ?_) le_rfl
    rcases mem_responseRaw_iff.1 ha with ⟨ang, _, rfl⟩
    exact (h ang).le
  · exact npMax_nonneg _

theorem gainAt_fin_zero {Nr : ℕ} (win_tx : Fin 0 → ℝ) (win_rx : Fin Nr → ℝ)
    (θu ang : ℝ) : gainAt win_tx win_rx θu ang = 0 := by
  rw [gainAt_eq]
  simp

theorem gainAt_fin_zero_rx {Nt : ℕ} (win_tx : Fin Nt → ℝ) (win_rx : Fin 0 → ℝ)
    (θu ang : ℝ) : gainAt win_tx win_rx θu ang = 0 := by
  rw [gainAt_eq]
  simp

theorem gainAt_pi_sub {Nt Nr : ℕ} (win_tx : Fin Nt → ℝ) (win_rx : Fin Nr → ℝ)
    (θ ang : ℝ) : gainAt win_tx win_rx (180 - θ) ang = gainAt win_tx win_rx θ ang := by
  unfold gainAt
  rw [steerVec_pi_sub, steerVec_pi_sub]

theorem mimo_window_else_eq_uniform {wt : String} (hm : wt ≠ "Hamming")
    (hn : wt ≠ "Hanning") (hb : wt ≠ "Blackman") (Nt Nr : ℕ) (θu : ℝ) (theta : List ℝ) :
    mimo_array_response Nt Nr θu theta wt = mimo_array_response Nt Nr θu theta "Uniform" := by
  have hw : ∀ M : ℕ, raw_window wt M = raw_window "Uniform" M := fun M => by
    rw [raw_window_else wt hm hn hb,
      raw_window_else "Uniform" (by decide) (by decide) (by decide)]
  unfold mimo_array_response responseMax responseRaw
  rw [hw Nt, hw Nr]

/-! ## Claim theorems -/

/-- C7: for every angle θ (the steering angle or a sweep angle) and every
window choice, the steering vector built by the engine (lines 79-80, 87-88)
has element n equal to `win[n] * exp(i * 2π * 0.5 * n * sin(radians θ))`,
where `win` is the normalized window (`win_tx` for length Nt, `win_rx` for
length Nr). -/
theorem steering_vector_formula (wt : String) (M : ℕ) (θ : ℝ) (n : Fin M) :
    steerVec (normalize (raw_window wt M)) θ n =
      ((normalize (raw_window wt M) n : ℝ) : ℂ) *
        Complex.exp (Complex.I *
          Complex.ofReal (2 * Real.pi * 0.5 * ((n : ℕ) : ℝ) * Real.sin (radians θ))) := by
  simp only [steerVec, k, d]

/-- C8: for every bearing θ in (-180, 180] (the range of
`np.degrees(np.arctan2(...))`), the folding step of lines 109-112 maps
θ > 90 to 180 - θ, maps θ < -90 to -180 - θ, leaves every other value
unchanged, and the resulting steering angle lies in [-90, 90]. -/
theorem fold_angle_spec (θ : ℝ) (hl : -180 < θ) (hu : θ ≤ 180) :
    (90 < θ → fold_angle θ = 180 - θ) ∧
      (θ < -90 → fold_angle θ = -180 - θ) ∧
      (-90 ≤ θ → θ ≤ 90 → fold_angle θ = θ) ∧
      -90 ≤ fold_angle θ ∧ fold_angle θ ≤ 90 := by
  unfold fold_angle
  split_ifs with h1 h2
  · exact ⟨fun _ => rfl, fun h => by linarith, fun _ h => by linarith, by linarith, by linarith⟩
  · push_neg at h1
    exact ⟨fun h => by linarith, fun _ => rfl, fun h _ => by linarith, by linarith, by linarith⟩
  · push_neg at h1 h2
    exact ⟨fun h => by linarith, fun h => by linarith, fun _ _ => rfl, by linarith, by linarith⟩

theorem fold_angle_spec_witness :
    fold_angle 135 = 180 - 135 ∧ -90 ≤ fold_angle 135 ∧ fold_angle 135 ≤ 90 := by
  have h := fold_angle_spec 135 (by norm_num) (by norm_num)
  exact ⟨h.1 (by norm_num), h.2.2.2.1, h.2.2.2.2⟩

/-- C10: the steering angle enters the computation only through
`sin(radians(theta_user))` (lines 79-80), and `sin(radians(180 - θ)) =
sin(radians θ)`, so steering to `180 - θ` returns the same gain sequence as
steering to `θ`. -/
theorem mimo_steering_sin_ambiguity (Nt Nr : ℕ) (θ : ℝ) (theta : List ℝ) (wt : String) :
    mimo_array_response Nt Nr (180 - θ) theta wt = mimo_array_response Nt Nr θ theta wt := by
  have hfun : gainAt (normalize (raw_window wt Nt)) (normalize (raw_window wt Nr)) (180 - θ)
      = gainAt (normalize (raw_window wt Nt)) (normalize (raw_window wt Nr)) θ :=
    funext fun ang => gainAt_pi_sub _ _ _ _
  unfold mimo_array_response responseMax responseRaw
  rw [hfun]

/-- C9: every `window_type` string other than `"Hamming"`, `"Hanning"` and
`"Blackman"` - including `"Uniform"` and any unrecognized string - takes the
final `else` branch of lines 61-72 (all-ones coefficients), raises no error,
and therefore produces exactly the response of `"Uniform"`. -/
theorem mimo_unrecognized_window_uniform (wt : String) (hm : wt ≠ "Hamming")
    (hn : wt ≠ "Hanning") (hb : wt ≠ "Blackman") (Nt Nr : ℕ) (θu : ℝ) (theta : List ℝ) :
    (∀ M : ℕ, raw_window wt M = fun _ => 1) ∧
      mimo_array_response Nt Nr θu theta wt = mimo_array_response Nt Nr θu theta "Uniform" :=
  ⟨fun M => raw_window_else wt hm hn hb M,
    mimo_window_else_eq_uniform hm hn hb Nt Nr θu theta⟩

theorem mimo_unrecognized_window_uniform_witness :
    mimo_array_response 1 1 0 [0] "Kaiser" = mimo_array_response 1 1 0 [0] "Uniform" :=
  (mimo_unrecognized_window_uniform "Kaiser" (by decide) (by decide) (by decide)
    1 1 0 [0]).2

/-- C4, counterexample: the claim says an unrecognized window kind signals
`InvalidWindowKind` and produces no response.  In the source there is no
such error path: at the concrete input `window_type = "Bogus"` no error is
raised (the only raising operation in the function is `np.max` of an empty
sweep) and a full one-element response is produced, identical to the
`"Uniform"` response. -/
theorem invalid_window_not_signalled :
    ¬ signalsError 1 1 ([0] : List ℝ) ∧
      (mimo_array_response 1 1 0 [0] "Bogus").length = 1 ∧
      mimo_array_response 1 1 0 [0] "Bogus" = mimo_array_response 1 1 0 [0] "Uniform" := by
  refine ⟨by simp [signalsError], by simp [mimo_array_response, responseRaw], ?_⟩
  exact mimo_window_else_eq_uniform (by decide) (by decide) (by decide) 1 1 0 [0]

/-- C4, amended: the window selection signals no error for kinds outside the
recognized set; any such kind falls back to the all-ones (`np.ones`)
coefficients of the `else` branch, and a response of the sweep's full length
is produced. -/
theorem invalid_window_falls_back (wt : String)
    (h : wt ∉ (["Uniform", "Hamming", "Hanning", "Blackman"] : List String))
    (Nt Nr : ℕ) (θu : ℝ) (theta : List ℝ) :
    (∀ n : Fin Nt, raw_window wt Nt n = 1) ∧
      (mimo_array_response Nt Nr θu theta wt).length = theta.length := by
  simp only [List.mem_cons, List.not_mem_nil, or_false, not_or] at h
  obtain ⟨h1, h2, h3, h4⟩ := h
  constructor
  · intro n
    rw [raw_window_else wt h2 h3 h4]
  · simp [mimo_array_response, responseRaw]

theorem invalid_window_falls_back_witness :
    (mimo_array_response 1 1 0 ([0] : List ℝ) "Bogus").length = ([0] : List ℝ).length :=
  (invalid_window_falls_back "Bogus" (by decide) 1 1 0 [0]).2

/-- C5, counterexample: the claim says the engine fails fast with
`InvalidGeometry` whenever Nt < 1 or Nr < 1.  At the concrete input
`Nt = 0, Nr = 1`, sweep `[0]`, no error is raised (the only raising
operation in the function is `np.max` of an empty array, and the sweep is
nonempty); instead a full-length result is returned whose entries are IEEE
`NaN`: every raw gain is 0, so the final normalisation divides 0 by 0. -/
theorem geometry_not_validated :
    ¬ signalsError 0 1 ([0] : List ℝ) ∧
      (mimo_array_response 0 1 0 [0] "Uniform").length = 1 ∧
      producesNaN 0 1 0 [0] "Uniform" := by
  refine ⟨by simp [signalsError], by simp [mimo_array_response, responseRaw],
    by simp, responseMax_eq_zero_of_gain_zero fun ang => gainAt_fin_zero _ _ _ _⟩

/-- C5, amended: the engine performs no geometry validation: whenever
`Nt < 1` or `Nr < 1` (and the sweep is nonempty) it raises no error and
returns an all-NaN sequence (the degenerate array side makes every raw gain
an empty sum, hence 0, and the final normalisation divides 0 by 0) instead
of signalling `InvalidGeometry`; the only input condition on which the call
fails is an empty sweep, where `np.max` raises a generic `ValueError`
rather than a descriptive `EmptySweep` error. -/
theorem mimo_no_geometry_validation (Nt Nr : ℕ) (θu : ℝ) (theta : List ℝ) (wt : String)
    (hgeom : Nt < 1 ∨ Nr < 1) (h : theta ≠ []) :
    ¬ signalsError Nt Nr theta ∧ producesNaN Nt Nr θu theta wt := by
  refine ⟨h, h, responseMax_eq_zero_of_gain_zero fun ang => ?_⟩
  rcases hgeom with h0 | h0
  · have hNt : Nt = 0 := by omega
    subst hNt
    exact gainAt_fin_zero _ _ _ _
  · have hNr : Nr = 0 := by omega
    subst hNr
    exact gainAt_fin_zero_rx _ _ _ _

theorem mimo_no_geometry_validation_witness :
    producesNaN 3 0 0 ([0, 30] : List ℝ) "Hamming" :=
  (mimo_no_geometry_validation 3 0 0 [0, 30] "Hamming" (Or.inr (by norm_num)) (by simp)).2

/-- C3, counterexample: the claim says `windowVector` has unit Euclidean
norm for every kind and every N ≥ 1, with a unit-impulse fallback when the
raw norm is 0.  The source has no such fallback: `np.hanning(2) = [0.0, 0.0]`
(exactly, also in IEEE doubles), so line 75 divides by a zero norm.  In IEEE
arithmetic the normalized vector is `[NaN, NaN]`; in this exact model it is
the zero vector.  Either way its norm is 0, not 1. -/
theorem hanning_two_norm_not_one :
    l2norm (normalize (raw_window "Hanning" 2)) = 0 ∧
      l2norm (normalize (raw_window "Hanning" 2)) ≠ 1 := by
  have h0 : l2norm (normalize (raw_window "Hanning" 2)) = 0 := by
    rw [raw_window_hanning]
    have hz : (∑ n : Fin 2, normalize (np_hanning 2) n ^ 2) = 0 := by
      simp [normalize_np_hanning_two]
    unfold l2norm
    rw [hz, Real.sqrt_zero]
  exact ⟨h0, by rw [h0]; norm_num⟩

/-- C3, amended: for every recognized window kind and every length N ≥ 1,
whenever the raw window coefficients have nonzero Euclidean norm the
normalized window has norm exactly 1; and the raw norm is indeed nonzero
for Uniform and Hamming at every N ≥ 1 and for Hanning and Blackman at
every N ≥ 1 with N ≠ 2.  There is no unit-impulse fallback for the
norm-zero case: at (Hanning, 2) the raw window is exactly `[0.0, 0.0]`
(also in IEEE doubles), and the division of line 75 produces NaN (the zero
vector in this exact model), not a unit impulse - see the counterexample.
(`np.blackman(2)` evaluates in IEEE doubles to a tiny nonzero rounding
residue, about -1.39e-17 per element, which the program does normalize to
a unit-norm vector; in the exact-real model its coefficients are exactly
zero, so the nonzero-norm part is stated here for N ≠ 2 and the
conditional part asserts nothing about that single input.) -/
theorem window_vector_norm_one (wt : String)
    (hwt : wt ∈ (["Uniform", "Hamming", "Hanning", "Blackman"] : List String))
    (M : ℕ) (hM : 1 ≤ M) :
    (l2norm (raw_window wt M) ≠ 0 → l2norm (normalize (raw_window wt M)) = 1) ∧
      (wt = "Uniform" ∨ wt = "Hamming" ∨ M ≠ 2 → l2norm (raw_window wt M) ≠ 0) := by
  refine ⟨fun h => l2norm_normalize _ h, fun hcase => ?_⟩
  simp only [List.mem_cons, List.not_mem_nil, or_false] at hwt
  rcases hwt with rfl | rfl | rfl | rfl
  · rw [raw_window_else "Uniform" (by decide) (by decide) (by decide)]
    refine (l2norm_pos_of_ne _ ⟨0, by omega⟩ ?_).ne'
    norm_num
  · rw [raw_window_hamming]
    exact (l2norm_pos_of_ne _ ⟨0, by omega⟩ (np_hamming_pos M _).ne').ne'
  · have hM2 : M ≠ 2 := by
      rcases hcase with h | h | h
      · exact absurd h (by decide)
      · exact absurd h (by decide)
      · exact h
    rw [raw_window_hanning]
    rcases eq_or_ne M 1 with rfl | hM1
    · refine (l2norm_pos_of_ne _ ⟨0, by omega⟩ ?_).ne'
      unfold np_hanning
      rw [if_pos rfl]
      norm_num
    · have h3 : 3 ≤ M := by omega
      exact (l2norm_pos_of_ne _ ⟨1, by omega⟩
        (np_hanning_pos_of_one h3 _ rfl).ne').ne'
  · have hM2 : M ≠ 2 := by
      rcases hcase with h | h | h
      · exact absurd h (by decide)
      · exact absurd h (by decide)
      · exact h
    rw [raw_window_blackman]
    rcases eq_or_ne M 1 with rfl | hM1
    · refine (l2norm_pos_of_ne _ ⟨0, by omega⟩ ?_).ne'
      unfold np_blackman
      rw [if_pos rfl]
      norm_num
    · have h3 : 3 ≤ M := by omega
      exact (l2norm_pos_of_ne _ ⟨1, by omega⟩
        (np_blackman_pos_of_one h3 _ rfl).ne').ne'

theorem window_vector_norm_one_witness :
    l2norm (normalize (raw_window "Hamming" 4)) = 1 :=
  (window_vector_norm_one "Hamming" (by decide) 4 (by norm_num)).1
    ((window_vector_norm_one "Hamming" (by decide) 4 (by norm_num)).2
      (Or.inr (Or.inl rfl)))

theorem uniform_one_norm_sq :
    (∑ n : Fin 1, normalize (raw_window "Uniform" 1) n ^ 2) = 1 := by
  have hr : raw_window "Uniform" 1 = fun _ => (1 : ℝ) :=
    raw_window_else _ (by decide) (by decide) (by decide) _
  have hl : l2norm (raw_window "Uniform" 1) = 1 := by
    unfold l2norm
    rw [hr]
    simp
  unfold normalize
  rw [hl, hr]
  simp

theorem uniform_one_responseMax :
    responseMax 1 1 0 ([0] : List ℝ) "Uniform" = 1 := by
  rw [responseMax_eq_gain_self (by simp : (0 : ℝ) ∈ [0])]
  rw [gainAt_self, uniform_one_norm_sq]
  norm_num

/-- C2, counterexample: the claim says the maximum of the returned gain_dB
sequence is 0.0 for every valid input (Nt ≥ 1, Nr ≥ 1, nonempty sweep,
recognized window kind).  At the concrete valid input Nt = 2, Nr = 1,
steering angle 0, sweep `[0]`, window `"Hanning"`: `np.hanning(2) = [0, 0]`
exactly (also in IEEE doubles), the window normalisation divides by a zero
norm, every raw gain is 0 and line 94 divides 0 by 0, so the returned
sequence is all-NaN and its maximum is NaN, not 0.0. -/
theorem hanning_two_produces_nan : producesNaN 2 1 0 ([0] : List ℝ) "Hanning" := by
  have hw : ∀ n : Fin 2, normalize (raw_window "Hanning" 2) n = 0 := fun n => by
    rw [raw_window_hanning]
    exact normalize_np_hanning_two n
  exact ⟨by simp, responseMax_eq_zero_of_gain_zero fun ang => gainAt_zero_tx hw _ _ _⟩

/-- C2, amended: for every input with a nonempty sweep on which the
computation is NaN-free (the maximal raw gain is nonzero), the returned
gain_dB sequence has maximum exactly 0: every entry is ≤ 0 and the entry at
a maximal raw gain is `20*log10(max/max) = 0`. -/
theorem mimo_max_dB_zero (Nt Nr : ℕ) (θu : ℝ) (theta : List ℝ) (wt : String)
    (hne : theta ≠ []) (hnan : ¬ producesNaN Nt Nr θu theta wt) :
    (∀ x ∈ mimo_array_response Nt Nr θu theta wt, x ≤ 0) ∧
      (0 : ℝ) ∈ mimo_array_response Nt Nr θu theta wt := by
  have hMx : responseMax Nt Nr θu theta wt ≠ 0 := fun h0 => hnan ⟨hne, h0⟩
  refine ⟨mimo_entries_nonpos _ _ _ _ _, ?_⟩
  have hmem : responseMax Nt Nr θu theta wt ∈ responseRaw Nt Nr θu theta wt :=
    npMax_mem hMx
  exact List.mem_map.2 ⟨responseMax Nt Nr θu theta wt, hmem, dB_self_max _⟩

theorem mimo_max_dB_zero_witness :
    (0 : ℝ) ∈ mimo_array_response 1 1 0 [0] "Uniform" :=
  (mimo_max_dB_zero 1 1 0 [0] "Uniform" (by simp)
    (fun h => one_ne_zero (uniform_one_responseMax.symm.trans h.2))).2

/-- C1, counterexample: the claim asserts the self-correlation peak for
every window kind, every Nt, Nr ≥ 1 and every sweep containing the steering
angle.  At Nt = 2, Nr = 1, steering angle 0, sweep `[0, 30]` (which contains
the steering angle at index 0), window `"Hanning"`: the zero-norm window
`np.hanning(2)` makes every raw gain 0 and line 94 divides 0 by 0, so the
returned sequence is all-NaN in IEEE arithmetic and its entry at the
steering index is NaN - not the maximum of the sequence (NaN compares false
with everything). -/
theorem hanning_two_peak_nan : producesNaN 2 1 0 ([0, 30] : List ℝ) "Hanning" := by
  have hw : ∀ n : Fin 2, normalize (raw_window "Hanning" 2) n = 0 := fun n => by
    rw [raw_window_hanning]
    exact normalize_np_hanning_two n
  exact ⟨by simp, responseMax_eq_zero_of_gain_zero fun ang => gainAt_zero_tx hw _ _ _⟩

/-- C1, amended: for every geometry, window kind and nonempty sweep that
contains the exact steering angle value, provided the computation is
NaN-free, the gain_dB entry at a sweep index holding the steering angle is
the maximum of the whole returned sequence (the self-correlation peak: the
raw gain at the steering angle is `(Σ win_rx²)·(Σ win_tx²)`, an upper bound
of every raw gain by the triangle inequality, and `20*log10` of a ratio
≤ 1 is ≤ 0). -/
theorem mimo_peak_at_steering (Nt Nr : ℕ) (θu : ℝ) (theta : List ℝ) (wt : String)
    (hNt : 1 ≤ Nt) (hNr : 1 ≤ Nr)
    (hwt : wt ∈ (["Uniform", "Hamming", "Hanning", "Blackman"] : List String))
    (hnan : ¬ producesNaN Nt Nr θu theta wt)
    (i : ℕ) (hi : i < theta.length)
    (hi' : i < (mimo_array_response Nt Nr θu theta wt).length)
    (hsteer : theta.get ⟨i, hi⟩ = θu) :
    ∀ x ∈ mimo_array_response Nt Nr θu theta wt,
      x ≤ (mimo_array_response Nt Nr θu theta wt).get ⟨i, hi'⟩ := by
  intro x hx
  have hθu : θu ∈ theta := hsteer ▸ List.get_mem theta i hi
  have hMx := @responseMax_eq_gain_self Nt Nr θu theta wt hθu
  have hentry : (mimo_array_response Nt Nr θu theta wt).get ⟨i, hi'⟩ = 0 := by
    rw [mimo_get Nt Nr θu theta wt i hi hi', hsteer, ← hMx]
    exact dB_self_max _
  rw [hentry]
  exact mimo_entries_nonpos _ _ _ _ _ x hx

theorem mimo_peak_at_steering_witness :
    (mimo_array_response 1 1 0 [0] "Uniform").get
        ⟨0, by norm_num [mimo_array_response, responseRaw]⟩ ≤
      (mimo_array_response 1 1 0 [0] "Uniform").get
        ⟨0, by norm_num [mimo_array_response, responseRaw]⟩ :=
  mimo_peak_at_steering 1 1 0 [0] "Uniform" (by norm_num) (by norm_num) (by simp)
    (fun h => one_ne_zero (uniform_one_responseMax.symm.trans h.2)) 0 (by norm_num)
    (by norm_num [mimo_array_response, responseRaw]) rfl _
    (List.get_mem _ 0 (by norm_num [mimo_array_response, responseRaw]))

theorem gainAt_neg_broadside {Nt Nr : ℕ} (win_tx : Fin Nt → ℝ) (win_rx : Fin Nr → ℝ)
    (ang : ℝ) : gainAt win_tx win_rx 0 (-ang) = gainAt win_tx win_rx 0 ang := by
  have h1 : Complex.abs (∑ i, steerVec win_rx (-ang) i * (starRingEnd ℂ) (steerVec win_rx 0 i))
      = Complex.abs (∑ i, steerVec win_rx ang i * (starRingEnd ℂ) (steerVec win_rx 0 i)) := by
    have hconj : (∑ i, steerVec win_rx (-ang) i * (starRingEnd ℂ) (steerVec win_rx 0 i))
        = (starRingEnd ℂ)
            (∑ i, steerVec win_rx ang i * (starRingEnd ℂ) (steerVec win_rx 0 i)) := by
      rw [map_sum]
      refine Finset.sum_congr rfl fun i _ => ?_
      simp [steerVec_neg, steerVec_zero, map_mul, Complex.conj_ofReal]
    rw [hconj, Complex.abs_conj]
  have h2 : Complex.abs (∑ j, (starRingEnd ℂ) (steerVec win_tx (-ang) j) * steerVec win_tx 0 j)
      = Complex.abs (∑ j, (starRingEnd ℂ) (steerVec win_tx ang j) * steerVec win_tx 0 j) := by
    have hconj : (∑ j, (starRingEnd ℂ) (steerVec win_tx (-ang) j) * steerVec win_tx 0 j)
        = (starRingEnd ℂ)
            (∑ j, (starRingEnd ℂ) (steerVec win_tx ang j) * steerVec win_tx 0 j) := by
      rw [map_sum]
      refine Finset.sum_congr rfl fun j _ => ?_
      simp [steerVec_neg, steerVec_zero, map_mul, Complex.conj_ofReal]
    rw [hconj, Complex.abs_conj]
  rw [gainAt_eq, gainAt_eq, h1, h2]

/-- C6: with the Uniform window and steering angle 0, the gain_dB entries at
two sweep indices holding opposite angles θ and -θ are equal: the raw gain
satisfies g(-θ) = g(θ) (the inner products conjugate under θ ↦ -θ, and the
absolute value is conjugation-invariant), and both entries divide by the
same sweep maximum. -/
theorem mimo_uniform_broadside_symmetric (Nt Nr : ℕ) (theta : List ℝ) (i j : ℕ)
    (hi : i < theta.length) (hj : j < theta.length)
    (hi' : i < (mimo_array_response Nt Nr 0 theta "Uniform").length)
    (hj' : j < (mimo_array_response Nt Nr 0 theta "Uniform").length)
    (hsym : theta.get ⟨i, hi⟩ = -(theta.get ⟨j, hj⟩)) :
    (mimo_array_response Nt Nr 0 theta "Uniform").get ⟨i, hi'⟩ =
      (mimo_array_response Nt Nr 0 theta "Uniform").get ⟨j, hj'⟩ := by
  rw [mimo_get Nt Nr 0 theta "Uniform" i hi hi', mimo_get Nt Nr 0 theta "Uniform" j hj hj',
    hsym, gainAt_neg_broadside]

theorem mimo_uniform_broadside_symmetric_witness :
    (mimo_array_response 1 1 0 [30, -30] "Uniform").get
        ⟨0, by norm_num [mimo_array_response, responseRaw]⟩ =
      (mimo_array_response 1 1 0 [30, -30] "Uniform").get
        ⟨1, by norm_num [mimo_array_response, responseRaw]⟩ :=
  mimo_uniform_broadside_symmetric 1 1 [30, -30] 0 1 (by norm_num) (by norm_num)
    (by norm_num [mimo_array_response, responseRaw])
    (by norm_num [mimo_array_response, responseRaw])
    (by show (30 : ℝ) = -(-30); norm_num)

end demomimo
